import Mathlib

/-!
Verification of the shooting-method trapped-surface finder (`findhorizon.py`).

The development shallowly embeds the numerical core of the module over the
real numbers: the expansion right-hand side, the two shooting objectives,
the root-finding driver `find_r0`, the dense surface assembly
`solve_given_r0`, and the two-body convenience helper.  External numerical
capabilities (the scipy `dopri5` adaptive integrator, the bracketed scalar
root solver behind `brentq`, and the multidimensional root solver behind
`root`) are modelled as black-box structures, exactly as the code consumes
them; `brentq`'s documented sign-change precondition (it raises `ValueError`
when the bracket endpoints have a product above zero) is the one piece of
external behaviour modelled concretely, since the code's error flow depends
on it.
-/

open Real

/-- The `spacetime` container: singularity z-positions, bare masses, and the
reflection-symmetry flag, as in the Python class `spacetime`. -/
structure spacetime where
  z_positions : List ℝ
  masses : List ℝ
  reflection_symmetric : Bool

/-- The i-th singularity position relative to the surface centre,
`z_i = z_positions[i] - z_centre`. -/
def zrel (st : spacetime) (zc : ℝ) (i : ℕ) : ℝ :=
  st.z_positions.getD i 0 - zc

/-- The i-th bare mass `m_i = masses[i]`. -/
def mass_i (st : spacetime) (i : ℕ) : ℝ :=
  st.masses.getD i 0

/-- Euclidean distance from the point at polar coordinates `(h, θ)` about the
centre to singularity i:
`distance_i[i] = sqrt((h sin θ)^2 + (h cos θ - z_i)^2)`. -/
noncomputable def distance_i (st : spacetime) (zc θ h : ℝ) (i : ℕ) : ℝ :=
  Real.sqrt ((h * Real.sin θ) ^ 2 + (h * Real.cos θ - zrel st zc i) ^ 2)

/-- Conformal factor `psi = 1 + Σ 0.5 m_i / distance_i`, accumulated over
`range(len(m_i))` as in the source loop. -/
noncomputable def psi (st : spacetime) (zc θ h : ℝ) : ℝ :=
  1 + ∑ i ∈ Finset.range st.masses.length, 0.5 * mass_i st i / distance_i st zc θ h i

/-- Radial derivative `dpsi_dr = Σ 0.5 m_i (z_i cos θ - h) / distance_i^3`. -/
noncomputable def dpsi_dr (st : spacetime) (zc θ h : ℝ) : ℝ :=
  ∑ i ∈ Finset.range st.masses.length,
    0.5 * mass_i st i * (zrel st zc i * Real.cos θ - h) / distance_i st zc θ h i ^ 3

/-- Angular derivative `dpsi_dtheta = Σ 0.5 m_i h (-z_i sin θ) / distance_i^3`. -/
noncomputable def dpsi_dtheta (st : spacetime) (zc θ h : ℝ) : ℝ :=
  ∑ i ∈ Finset.range st.masses.length,
    0.5 * mass_i st i * h * (-zrel st zc i * Real.sin θ) / distance_i st zc θ h i ^ 3

/-- The ODE right-hand side `trappedsurface.expansion`: given `θ` and the
state `H = (h, h')`, return `(dh/dθ, d²h/dθ²)`.  The guard zeroing the
cotangent term when `|θ| < 1e-16` or `|θ - π| < 1e-16` is the source's
axis-singularity removal. -/
noncomputable def expansion (st : spacetime) (zc : ℝ) (θ : ℝ) (H : ℝ × ℝ) : ℝ × ℝ :=
  let h := H.1
  let dhdtheta := H.2
  let C := 1 / Real.sqrt (1 + (dhdtheta / h) ^ 2)
  let cot_term :=
    if |θ| < 1e-16 ∨ |θ - π| < 1e-16 then (0 : ℝ)
    else dhdtheta / (Real.tan θ * C ^ 2)
  (dhdtheta,
    2 * h - cot_term +
      4 * h ^ 2 / (psi st zc θ h * C ^ 2) *
        (dpsi_dr st zc θ h - dpsi_dtheta st zc θ h * dhdtheta / h ^ 2) +
      3 * dhdtheta ^ 2 / h)

/-- Modelled from the spec: the spec's `DomainError` kind ("ExpansionField
evaluated at non-positive radius or otherwise singular state").  The source
defines no such error class; the type exists so that the presence or absence
of an error path can be stated. -/
inductive DomainError where
  | domainError : DomainError
  deriving DecidableEq

/-- The evaluation of `expansion` wrapped in `Except`: the source body
contains no `raise` statement on any input, so the wrapper is always `ok`.
This is the faithful image of the Python control flow. -/
noncomputable def expansionE (st : spacetime) (zc : ℝ) (θ : ℝ) (H : ℝ × ℝ) :
    Except DomainError (ℝ × ℝ) :=
  Except.ok (expansion st zc θ H)

/-- Spec-side factor `C = 1/√(1+(h'/h)²)`, written from the spec's words. -/
noncomputable def specC (h h' : ℝ) : ℝ :=
  1 / Real.sqrt (1 + (h' / h) ^ 2)

/-- Spec-side angular-curvature term: `cot(θ)·h'/C²`, written as
`h'/(tan(θ)·C²)`, forced to exactly 0 when θ is within 1e-16 of 0 or π. -/
noncomputable def specCotTerm (θ h h' : ℝ) : ℝ :=
  if |θ| < 1e-16 ∨ |θ - π| < 1e-16 then 0
  else h' / (Real.tan θ * specC h h' ^ 2)

/-- Spec-side conformal factor `ψ = 1 + Σ 0.5·m_i/dist_i`, summed over the
N singularities of the data model. -/
noncomputable def specPsi (st : spacetime) (zc θ h : ℝ) : ℝ :=
  1 + ∑ i ∈ Finset.range st.z_positions.length,
        0.5 * mass_i st i / distance_i st zc θ h i

/-- Spec-side `∂ψ/∂r = Σ 0.5·m_i·(z_i·cosθ − h)/dist_i³`. -/
noncomputable def specPsiR (st : spacetime) (zc θ h : ℝ) : ℝ :=
  ∑ i ∈ Finset.range st.z_positions.length,
    0.5 * mass_i st i * (zrel st zc i * Real.cos θ - h) / distance_i st zc θ h i ^ 3

/-- Spec-side `∂ψ/∂θ = Σ 0.5·m_i·h·(−z_i·sinθ)/dist_i³`. -/
noncomputable def specPsiTheta (st : spacetime) (zc θ h : ℝ) : ℝ :=
  ∑ i ∈ Finset.range st.z_positions.length,
    0.5 * mass_i st i * h * (-zrel st zc i * Real.sin θ) / distance_i st zc θ h i ^ 3

/-- Spec-side second derivative:
`d²h/dθ² = 2h − cot-term + 4h²/(ψ·C²)·(∂ψ/∂r − ∂ψ/∂θ·h'/h²) + 3h'²/h`. -/
noncomputable def specSecondDerivative (st : spacetime) (zc θ h h' : ℝ) : ℝ :=
  2 * h - specCotTerm θ h h' +
    4 * h ^ 2 / (specPsi st zc θ h * specC h h' ^ 2) *
      (specPsiR st zc θ h - specPsiTheta st zc θ h * h' / h ^ 2) +
    3 * h' ^ 2 / h

/-- The Schwarzschild spacetime of the module's doctest:
`spacetime([0.0], [1.0], True)`. -/
def schw : spacetime := ⟨[0], [1], true⟩

/-- Black-box model of the external adaptive ODE integrator (scipy's
`dopri5` stepper).  `integrate rhs y t0 t1 atol rtol` is the state reported
at the requested endpoint `t1` when integration starts from state `y` at
`t0` under the given absolute and relative tolerances. -/
structure Integrator where
  integrate : (ℝ → ℝ × ℝ → ℝ × ℝ) → ℝ × ℝ → ℝ → ℝ → ℝ → ℝ → ℝ × ℝ

/-- `trappedsurface.shooting_function`: integrate from θ = 0 with state
`(r0, 0)` to π/2 at tolerances `atol=1e-8`, `rtol=1e-6` and return
`solver1.y[1]`, the derivative component of the terminal state. -/
noncomputable def shooting_function (I : Integrator) (st : spacetime) (zc : ℝ) (r0 : ℝ) : ℝ :=
  (I.integrate (expansion st zc) (r0, 0) 0 (π / 2) 1e-8 1e-6).2

/-- `trappedsurface.shooting_function_full`: integrate from θ = 0 with state
`(r0[0], 0)` to π/2, independently from θ = π with state `(r0[1], 0)` to
π/2, and return the componentwise difference `solver1.y - solver2.y`. -/
noncomputable def shooting_function_full (I : Integrator) (st : spacetime) (zc : ℝ)
    (r0 : ℝ × ℝ) : ℝ × ℝ :=
  let y1 := I.integrate (expansion st zc) (r0.1, 0) 0 (π / 2) 1e-8 1e-6
  let y2 := I.integrate (expansion st zc) (r0.2, 0) π (π / 2) 1e-8 1e-6
  (y1.1 - y2.1, y1.2 - y2.2)

/-- Spec-side symmetric objective, written from the spec's words: integrate
the ODE from θ=0 with initial state (r0, 0) forward to θ=π/2 using the
adaptive integrator at absolute tolerance 1e-8 and relative tolerance 1e-6;
the residual is the derivative component h'(π/2) of the terminal state. -/
noncomputable def symObjectiveSpec (I : Integrator) (st : spacetime) (zc : ℝ) (r0 : ℝ) : ℝ :=
  let terminal := I.integrate (expansion st zc) (r0, 0) 0 (π / 2) 1e-8 1e-6
  terminal.2

/-- Spec-side general objective, written from the spec's words: integrate
forward from θ=0 with (r0_a, 0) to π/2, independently integrate from θ=π
with (r0_b, 0) to π/2, and return the 2-vector difference of the two
terminal states (first minus second), so both value and derivative enter
the residual. -/
noncomputable def generalObjectiveSpec (I : Integrator) (st : spacetime) (zc : ℝ)
    (r0 : ℝ × ℝ) : ℝ × ℝ :=
  let stateA := I.integrate (expansion st zc) (r0.1, 0) 0 (π / 2) 1e-8 1e-6
  let stateB := I.integrate (expansion st zc) (r0.2, 0) π (π / 2) 1e-8 1e-6
  (stateA.1 - stateB.1, stateA.2 - stateB.2)

/-- The error raised by the external root-finding layer.  The only error the
source can see from `brentq` is scipy's `ValueError` for a bracket without a
sign change; the spec names this event `NoSignChangeInBracket`. -/
inductive PyError where
  | valueError : PyError
  deriving DecidableEq

/-- Black-box model of the successful path of the external bracketed scalar
root solver (the iteration inside scipy's `brentq`). -/
structure BracketSolver where
  solve : (ℝ → ℝ) → ℝ → ℝ → ℝ

/-- Model of `scipy.optimize.brentq f a b`: scipy first checks the bracket
and raises `ValueError` ("f(a) and f(b) must have different signs") when
`f(a)·f(b) > 0`; otherwise the bracketed iteration returns a root. -/
noncomputable def brentq (B : BracketSolver) (f : ℝ → ℝ) (a b : ℝ) : Except PyError ℝ :=
  if 0 < f a * f b then Except.error PyError.valueError
  else Except.ok (B.solve f a b)

/-- Result object of the external multidimensional root solver: the final
iterate `x` and the convergence flag `success`, as in scipy's `root`. -/
structure VectorRootResult where
  x : ℝ × ℝ
  success : Bool

/-- Black-box model of `scipy.optimize.root` (nonlinear vector root solver):
given the objective, the initial guess and the tolerance it returns a result
object.  It raises nothing; non-convergence only shows in `success`. -/
structure VectorRootSolver where
  solve : (ℝ × ℝ → ℝ × ℝ) → ℝ × ℝ → ℝ → VectorRootResult

/-- `trappedsurface.find_r0`, returned as the pair
(exception escaping the call, final value of the `r0` attribute).
The source first assigns `self.r0 = []`; in general mode it stores `sol.x`
from `root(..., tol=1e-12)` unconditionally; in symmetric mode it stores
`[brentq(...)]`, and a `ValueError` from `brentq` escapes leaving `r0 = []`. -/
noncomputable def find_r0 (I : Integrator) (B : BracketSolver) (R : VectorRootSolver)
    (st : spacetime) (zc : ℝ) (input_guess : ℝ × ℝ) (full_horizon : Bool) :
    Option PyError × List ℝ :=
  if full_horizon || !st.reflection_symmetric then
    let sol := R.solve (shooting_function_full I st zc) input_guess 1e-12
    (none, [sol.x.1, sol.x.2])
  else
    match brentq B (shooting_function I st zc) input_guess.1 input_guess.2 with
    | Except.error e => (some e, [])
    | Except.ok x => (none, [x])

/-- Spec-side symmetric-mode path of `find_r0`: the symmetric 1-D objective
with the bracketed root solver; on success one resolved radius is stored. -/
noncomputable def symmetricModePath (I : Integrator) (B : BracketSolver)
    (st : spacetime) (zc : ℝ) (input_guess : ℝ × ℝ) : Option PyError × List ℝ :=
  match brentq B (shooting_function I st zc) input_guess.1 input_guess.2 with
  | Except.error e => (some e, [])
  | Except.ok x => (none, [x])

/-- Spec-side general-mode path of `find_r0`: the general vector objective
with the multidimensional root solver; two radii are stored. -/
noncomputable def generalModePath (I : Integrator) (R : VectorRootSolver)
    (st : spacetime) (zc : ℝ) (input_guess : ℝ × ℝ) : Option PyError × List ℝ :=
  let sol := R.solve (shooting_function_full I st zc) input_guess 1e-12
  (none, [sol.x.1, sol.x.2])

/-- The forward stepping loop of `solve_given_r0`:
`while solver.t < pi/2: solver.integrate(solver.t + dtheta); append (t, y)`
with the fixed step `dtheta = pi/100` of the source.  Each entry records the
solver time and state after one `integrate` call. -/
noncomputable def fwdLoop (I : Integrator) (rhs : ℝ → ℝ × ℝ → ℝ × ℝ) (t : ℝ) (y : ℝ × ℝ) :
    List (ℝ × (ℝ × ℝ)) :=
  if h : t < π / 2 then
    let y2 := I.integrate rhs y t (t + π / 100) 1e-8 1e-6
    (t + π / 100, y2) :: fwdLoop I rhs (t + π / 100) y2
  else
    []
termination_by Nat.ceil ((π / 2 - t) / (π / 100))
decreasing_by
  have hpi : (0 : ℝ) < π := Real.pi_pos
  have hd : (0 : ℝ) < π / 100 := by linarith
  have hx : 0 < (π / 2 - t) / (π / 100) := div_pos (by linarith) hd
  have harg : (π / 2 - (t + π / 100)) / (π / 100) = (π / 2 - t) / (π / 100) - 1 := by
    field_simp
    ring
  rw [harg]
  have hcx : 0 < Nat.ceil ((π / 2 - t) / (π / 100)) := Nat.ceil_pos.mpr hx
  have h2 : Nat.ceil ((π / 2 - t) / (π / 100) - 1) ≤ Nat.ceil ((π / 2 - t) / (π / 100)) - 1 := by
    apply Nat.ceil_le.mpr
    have hle : (π / 2 - t) / (π / 100) ≤ (Nat.ceil ((π / 2 - t) / (π / 100)) : ℝ) :=
      Nat.le_ceil _
    have hcast : ((Nat.ceil ((π / 2 - t) / (π / 100)) - 1 : ℕ) : ℝ) =
        (Nat.ceil ((π / 2 - t) / (π / 100)) : ℝ) - 1 := by
      push_cast [Nat.cast_sub hcx]
      ring
    rw [hcast]
    linarith
  omega

/-- The backward stepping loop of `solve_given_r0`:
`while solver.t >= pi/2 + 1e-12: solver.integrate(solver.t - dtheta)`,
appending the solver time and state after each call. -/
noncomputable def bwdLoop (I : Integrator) (rhs : ℝ → ℝ × ℝ → ℝ × ℝ) (t : ℝ) (y : ℝ × ℝ) :
    List (ℝ × (ℝ × ℝ)) :=
  if h : π / 2 + 1e-12 ≤ t then
    let y2 := I.integrate rhs y t (t - π / 100) 1e-8 1e-6
    (t - π / 100, y2) :: bwdLoop I rhs (t - π / 100) y2
  else
    []
termination_by Nat.ceil ((t - (π / 2 + 1e-12)) / (π / 100) + 1)
decreasing_by
  have hpi : (0 : ℝ) < π := Real.pi_pos
  have hd : (0 : ℝ) < π / 100 := by linarith
  have hx : 0 ≤ (t - (π / 2 + 1e-12)) / (π / 100) := by
    apply div_nonneg _ (le_of_lt hd)
    linarith
  have harg : (t - π / 100 - (π / 2 + 1e-12)) / (π / 100) + 1 =
      (t - (π / 2 + 1e-12)) / (π / 100) := by
    field_simp
    ring
  rw [harg]
  have hceil : Nat.ceil ((t - (π / 2 + 1e-12)) / (π / 100) + 1) =
      Nat.ceil ((t - (π / 2 + 1e-12)) / (π / 100)) + 1 := Nat.ceil_add_one hx
  omega

/-- The forward trajectory accumulated by `solve_given_r0`: the initial
sample `(0, (r0a, 0))` followed by the forward loop samples. -/
noncomputable def fwdPairs (I : Integrator) (st : spacetime) (zc : ℝ) (r0a : ℝ) :
    List (ℝ × (ℝ × ℝ)) :=
  (0, (r0a, 0)) :: fwdLoop I (expansion st zc) 0 (r0a, 0)

/-- The backward trajectory accumulated by `solve_given_r0` in the general
branch: the initial sample `(π, (r0b, 0))` followed by the backward loop. -/
noncomputable def bwdPairs (I : Integrator) (st : spacetime) (zc : ℝ) (r0b : ℝ) :
    List (ℝ × (ℝ × ℝ)) :=
  (π, (r0b, 0)) :: bwdLoop I (expansion st zc) π (r0b, 0)

/-- General-branch half-domain θ samples:
`theta = hstack((theta1, flipud(theta2)))`. -/
noncomputable def genHalfTheta (I : Integrator) (st : spacetime) (zc r0a r0b : ℝ) : List ℝ :=
  (fwdPairs I st zc r0a).map Prod.fst ++ ((bwdPairs I st zc r0b).map Prod.fst).reverse

/-- General-branch half-domain states: `H = vstack((H1, flipud(H2)))`. -/
noncomputable def genHalfH (I : Integrator) (st : spacetime) (zc r0a r0b : ℝ) :
    List (ℝ × ℝ) :=
  (fwdPairs I st zc r0a).map Prod.snd ++ ((bwdPairs I st zc r0b).map Prod.snd).reverse

/-- Symmetric-branch half-domain θ samples:
`theta = hstack((theta1, flipud(pi - theta1)))`. -/
noncomputable def symHalfTheta (I : Integrator) (st : spacetime) (zc r0a : ℝ) : List ℝ :=
  (fwdPairs I st zc r0a).map Prod.fst ++
    (((fwdPairs I st zc r0a).map Prod.fst).map (fun t => π - t)).reverse

/-- Symmetric-branch half-domain states: `H = vstack((H1, flipud(H1)))`. -/
noncomputable def symHalfH (I : Integrator) (st : spacetime) (zc r0a : ℝ) : List (ℝ × ℝ) :=
  (fwdPairs I st zc r0a).map Prod.snd ++ ((fwdPairs I st zc r0a).map Prod.snd).reverse

/-- `trappedsurface.solve_given_r0`: dense re-integration with fixed step
`dtheta = pi/100`, then symmetry mirroring.  Returns the final attribute
pair `(self.theta, self.H)`, i.e.
`self.theta = hstack((theta, theta + pi))` and
`self.H = vstack((H, flipud(H)))` built on the branch-dependent half-domain
arrays. -/
noncomputable def solve_given_r0 (I : Integrator) (st : spacetime) (zc : ℝ) (r0 : List ℝ)
    (full_horizon : Bool) : List ℝ × List (ℝ × ℝ) :=
  if full_horizon || !st.reflection_symmetric then
    let θs := genHalfTheta I st zc (r0.getD 0 0) (r0.getD 1 0)
    let H := genHalfH I st zc (r0.getD 0 0) (r0.getD 1 0)
    (θs ++ θs.map (fun t => t + π), H ++ H.reverse)
  else
    let θs := symHalfTheta I st zc (r0.getD 0 0)
    let H := symHalfH I st zc (r0.getD 0 0)
    (θs ++ θs.map (fun t => t + π), H ++ H.reverse)

/-- Number of iterations the backward loop performs from time `t`:
0 when the guard fails at entry, and `⌊(t − (π/2 + 1e-12))/(π/100)⌋ + 1`
otherwise. -/
noncomputable def bwdSteps (t : ℝ) : ℕ :=
  if π / 2 + 1e-12 ≤ t then Nat.floor ((t - (π / 2 + 1e-12)) / (π / 100)) + 1 else 0

/-- Closed form of the forward θ samples: `0, dθ, 2dθ, …, 50·dθ = π/2` with
`dθ = π/100` (51 entries). -/
noncomputable def thetaQuarter : List ℝ :=
  (List.range 51).map (fun k : ℕ => (k : ℝ) * (π / 100))

/-- Closed form of the backward θ samples of the general branch:
`π, π − dθ, …, π − 50·dθ = π/2` (51 entries, descending). -/
noncomputable def thetaBack : List ℝ :=
  π :: (List.range 50).map (fun k : ℕ => π - ((k : ℝ) + 1) * (π / 100))

/-- Closed form of the symmetric-branch half-domain θ samples. -/
noncomputable def thetaHalfSym : List ℝ :=
  thetaQuarter ++ (thetaQuarter.map (fun t => π - t)).reverse

/-- Closed form of the symmetric-branch full θ output. -/
noncomputable def thetaFullSym : List ℝ :=
  thetaHalfSym ++ thetaHalfSym.map (fun t => t + π)

/-- Closed form of the general-branch half-domain θ samples. -/
noncomputable def thetaHalfGen : List ℝ :=
  thetaQuarter ++ thetaBack.reverse

/-- Closed form of the general-branch full θ output. -/
noncomputable def thetaFullGen : List ℝ :=
  thetaHalfGen ++ thetaHalfGen.map (fun t => t + π)

/-- The domain-coverage claim on the θ outputs of `solve_given_r0`, as the
spec states it: the sequences cover `[0, 2π)` with no sample at or beyond
2π, their lengths are within ±1 of `4·(π/2)/dθ = 200` (symmetric) and of
`2·π/dθ = 200` (general), and the general half-domain concatenation has no
duplicated `θ = π/2` sample. -/
def claimC5 (θsym θgen θgenHalf : List ℝ) : Prop :=
  (∀ x ∈ θsym, x < 2 * π) ∧ (∀ x ∈ θgen, x < 2 * π) ∧
  ((θsym.length : ℤ) - 200).natAbs ≤ 1 ∧ ((θgen.length : ℤ) - 200).natAbs ≤ 1 ∧
  θgenHalf.count (π / 2) ≤ 1

/-- Model of `np.linspace a b` with `n` samples (`n = 50` is numpy's
default): the k-th point is `a + (b − a)·k/(n − 1)`. -/
noncomputable def linspace (a b : ℝ) (n : ℕ) : List ℝ :=
  (List.range n).map (fun k : ℕ => a + (b - a) * (k : ℝ) / ((n : ℝ) - 1))

/-- Accumulator loop of `np.argmin`: scan the remaining entries keeping the
index of the first occurrence of the least value seen so far. -/
noncomputable def argminAux : List ℝ → ℕ → ℕ → ℝ → ℕ
  | [], _, best, _ => best
  | x :: xs, i, best, bv =>
      if x < bv then argminAux xs (i + 1) i x else argminAux xs (i + 1) best bv

/-- Model of `np.argmin`: index of the first occurrence of the minimum
value (0 on the empty array, where numpy would raise). -/
noncomputable def argmin : List ℝ → ℕ
  | [] => 0
  | x :: xs => argminAux xs 1 0 x

/-- The two-singularity reflection-symmetric spacetime built by
`FindHorizonBinarySymmetric`: `spacetime([-z, z], [mass, mass], True)`. -/
def binarySpacetime (z mass : ℝ) : spacetime :=
  ⟨[-z, z], [mass, mass], true⟩

/-- The empirical cubic initial guess of `FindHorizonBinarySymmetric`:
`mass·(1 − 0.0383·z + 0.945·z² − 0.522·z³)`. -/
noncomputable def r0Empirical (z mass : ℝ) : ℝ :=
  mass * (1 - 0.0383 * z + 0.945 * z ^ 2 - 0.522 * z ^ 3)

/-- The fallback scan grid: `np.linspace(0.95·guess, 1.05·guess)`, numpy's
default 50 samples. -/
noncomputable def scanCandidates (z mass : ℝ) : List ℝ :=
  linspace (0.95 * r0Empirical z mass) (1.05 * r0Empirical z mass) 50

/-- The objective values over the scan grid:
`phi[i] = ts.shooting_function(r0[i])`. -/
noncomputable def scanValues (I : Integrator) (z mass : ℝ) : List ℝ :=
  (scanCandidates z mass).map (fun r => shooting_function I (binarySpacetime z mass) 0 r)

/-- The candidate the source selects for the retry bracket:
`r0[np.argmin(phi)]`. -/
noncomputable def scanSelected (I : Integrator) (z mass : ℝ) : ℝ :=
  (scanCandidates z mass).getD (argmin (scanValues I z mass)) 0

/-- Spec-side selection, written from the spec's words: the candidate that
minimizes the magnitude (absolute value) of the objective over the scan. -/
noncomputable def specScanSelected (I : Integrator) (z mass : ℝ) : ℝ :=
  (scanCandidates z mass).getD (argmin ((scanValues I z mass).map (fun v => |v|))) 0

/-- The r0-resolution portion of `FindHorizonBinarySymmetric` (source lines
505–523): try `find_r0` on the bracket `[0.99, 1.01]·guess`; on a
`ValueError` evaluate the symmetric objective on the scan grid and retry
`find_r0` with the bracket `[r0[argmin(phi)], r0[-1]]`; a failure of the
retry propagates.  The subsequent `solve_given_r0`/plotting calls of the
helper are outside this model. -/
noncomputable def findHorizonBinarySymmetric_r0 (I : Integrator) (B : BracketSolver)
    (R : VectorRootSolver) (z mass : ℝ) : Option PyError × List ℝ :=
  let st := binarySpacetime z mass
  let guess := r0Empirical z mass
  match find_r0 I B R st 0 (0.99 * guess, 1.01 * guess) false with
  | (none, r0) => (none, r0)
  | (some _, _) =>
      find_r0 I B R st 0 (scanSelected I z mass, (scanCandidates z mass).getLastD 0) false

/-- Trivial integrator for witnesses: reports the initial state unchanged,
so the symmetric objective evaluates to 0. -/
def intId : Integrator := ⟨fun _ y _ _ _ _ => y⟩

/-- Witness integrator whose reported derivative component is the constant
1, so the symmetric objective evaluates to 1 everywhere. -/
def intOne : Integrator := ⟨fun _ y _ _ _ _ => (y.1, 1)⟩

/-- Witness integrator whose reported derivative component is the negated
initial radius, so the symmetric objective evaluates to `-r0`. -/
def intNeg : Integrator := ⟨fun _ y _ _ _ _ => (y.1, -y.1)⟩

/-- Witness bracketed solver returning the constant 0.5. -/
def brk0 : BracketSolver := ⟨fun _ _ _ => 0.5⟩

/-- Witness vector root solver reporting success at `(1, 1)`. -/
def vroot0 : VectorRootSolver := ⟨fun _ _ _ => ⟨(1, 1), true⟩⟩

/-- Vector root solver that exhausts its budget: reports `success = false`
with final iterate `(42, 7)`. -/
def vrootFail : VectorRootSolver := ⟨fun _ _ _ => ⟨(42, 7), false⟩⟩

/-- A non-symmetric two-singularity spacetime (the module docstring's
`spacetime([-0.75, 0.75], [1.0, 1.1])`). -/
def binaryAsym : spacetime := ⟨[-0.75, 0.75], [1, 1.1], false⟩

/-- Helper: θ = π/2 is not within 1e-16 of either axis point 0 or π. -/
theorem pi_div_two_not_axis : ¬(|(π / 2 : ℝ)| < 1e-16 ∨ |π / 2 - π| < 1e-16) := by
  have h3 : (3 : ℝ) < π := Real.pi_gt_three
  have hsm : (1e-16 : ℝ) < 3 / 2 := by norm_num
  push_neg
  constructor
  · rw [abs_of_pos (by linarith)]
    linarith
  · rw [show (π / 2 - π : ℝ) = -(π / 2) by ring, abs_neg, abs_of_pos (by linarith)]
    linarith

/-- Helper: with the data-model invariant (equal position/mass list
lengths), the source's `expansion` agrees with the spec-side formula. -/
theorem expansion_eq_spec (st : spacetime) (zc θ h h' : ℝ)
    (hlen : st.z_positions.length = st.masses.length) :
    expansion st zc θ (h, h') = (h', specSecondDerivative st zc θ h h') := by
  simp only [expansion, specSecondDerivative, specCotTerm, specC, specPsi, specPsiR,
    specPsiTheta, psi, dpsi_dr, dpsi_dtheta, hlen]

/-- C1: at every state with positive radius and positive singularity
distances, the expansion right-hand side returns `(h', d²h/dθ²)` with the
second derivative given by the spec formula, the cotangent term being
forced to exactly 0 on the axis guard `|θ| < 1e-16 ∨ |θ − π| < 1e-16` and
equal to `h'/(tan θ · C²)` otherwise. -/
theorem expansion_matches_spec (st : spacetime) (zc θ h h' : ℝ)
    (hlen : st.z_positions.length = st.masses.length)
    (hpos : 0 < h)
    (hdist : ∀ i < st.masses.length, 0 < distance_i st zc θ h i) :
    expansion st zc θ (h, h') = (h', specSecondDerivative st zc θ h h') :=
  expansion_eq_spec st zc θ h h' hlen

/-- Witness for C1 at the Schwarzschild data, θ = π/2, h = 1, h' = 0. -/
theorem expansion_matches_spec_witness :
    expansion schw 0 (π / 2) (1, 0) = (0, specSecondDerivative schw 0 (π / 2) 1 0) :=
  expansion_matches_spec schw 0 (π / 2) 1 0 rfl (by norm_num)
    (by
      intro i hi
      have hi0 : i = 0 := by
        simpa [schw] using hi
      subst hi0
      have harg : ((1 : ℝ) * Real.sin (π / 2)) ^ 2 +
          ((1 : ℝ) * Real.cos (π / 2) - zrel schw 0 0) ^ 2 = 1 := by
        simp [zrel, schw]
      rw [distance_i, harg, Real.sqrt_one]
      norm_num)

/-- C2: the symmetric shooting objective is exactly the spec's description:
integrate from θ=0 with state (r0, 0) forward to π/2 at tolerances
1e-8/1e-6 and return the derivative component of the terminal state. -/
theorem shooting_function_matches_spec (I : Integrator) (st : spacetime) (zc r0 : ℝ) :
    shooting_function I st zc r0 = symObjectiveSpec I st zc r0 := rfl

/-- C3: the general shooting objective is exactly the spec's description:
two independent integrations (from 0 up to π/2 and from π down to π/2) and
the componentwise difference of the terminal states, first minus second. -/
theorem shooting_function_full_matches_spec (I : Integrator) (st : spacetime) (zc : ℝ)
    (r0 : ℝ × ℝ) :
    shooting_function_full I st zc r0 = generalObjectiveSpec I st zc r0 ∧
    (shooting_function_full I st zc r0).1 =
      (I.integrate (expansion st zc) (r0.1, 0) 0 (π / 2) 1e-8 1e-6).1 -
        (I.integrate (expansion st zc) (r0.2, 0) π (π / 2) 1e-8 1e-6).1 ∧
    (shooting_function_full I st zc r0).2 =
      (I.integrate (expansion st zc) (r0.1, 0) 0 (π / 2) 1e-8 1e-6).2 -
        (I.integrate (expansion st zc) (r0.2, 0) π (π / 2) 1e-8 1e-6).2 :=
  ⟨rfl, rfl, rfl⟩

/-- C4: `find_r0` takes the symmetric path (1-D objective + bracketed
solver) exactly when the spacetime is reflection symmetric and the general
algorithm was not requested, and the general path (vector objective +
multidimensional solver) otherwise; the stored r0 has one entry on a
successful symmetric solve and two in general mode. -/
theorem find_r0_mode_selection (I : Integrator) (B : BracketSolver) (R : VectorRootSolver)
    (st : spacetime) (zc : ℝ) (g : ℝ × ℝ) (fh : Bool) :
    (find_r0 I B R st zc g fh =
      if st.reflection_symmetric = true ∧ fh = false then symmetricModePath I B st zc g
      else generalModePath I R st zc g) ∧
    ((symmetricModePath I B st zc g).1 = none →
      (symmetricModePath I B st zc g).2.length = 1) ∧
    (generalModePath I R st zc g).2.length = 2 := by
  refine ⟨?_, ?_, rfl⟩
  · by_cases hs : st.reflection_symmetric = true <;> by_cases hf : fh = true <;>
      simp_all [find_r0, symmetricModePath, generalModePath]
  · intro h1
    unfold symmetricModePath at h1 ⊢
    cases hbr : brentq B (shooting_function I st zc) g.1 g.2 <;> simp [hbr] at h1 ⊢

/-- Witness for C4 at the Schwarzschild data with concrete solvers. -/
theorem find_r0_mode_selection_witness :
    find_r0 intId brk0 vroot0 schw 0 (0.49, 0.51) false =
      symmetricModePath intId brk0 schw 0 (0.49, 0.51) ∧
    (symmetricModePath intId brk0 schw 0 (0.49, 0.51)).2.length = 1 ∧
    (generalModePath intId vroot0 schw 0 (0.49, 0.51)).2.length = 2 := by
  have h := find_r0_mode_selection intId brk0 vroot0 schw 0 (0.49, 0.51) false
  refine ⟨?_, ?_, h.2.2⟩
  · have h1 := h.1
    simpa [schw] using h1
  · exact h.2.1 (by norm_num [symmetricModePath, brentq, shooting_function, intId])

/-- C6 counterexample: the expansion evaluated at the non-positive radius
h = −1 (Schwarzschild data, θ = π/2) raises nothing and returns the numeric
pair (0, −2/3); there is no `DomainError` path in the source. -/
theorem expansion_negative_radius_returns_ok :
    ((-1 : ℝ) ≤ 0) ∧
    expansionE schw 0 (π / 2) (-1, 0) = Except.ok ((0 : ℝ), -(2 / 3 : ℝ)) := by
  refine ⟨by norm_num, ?_⟩
  show Except.ok (expansion schw 0 (π / 2) (-1, 0)) = _
  have hdist : distance_i schw 0 (π / 2) (-1) 0 = 1 := by
    have harg : ((-1 : ℝ) * Real.sin (π / 2)) ^ 2 +
        ((-1 : ℝ) * Real.cos (π / 2) - zrel schw 0 0) ^ 2 = 1 := by
      simp [zrel, schw]
    rw [distance_i, harg, Real.sqrt_one]
  simp only [expansion, if_neg pi_div_two_not_axis]
  simp only [psi, dpsi_dr, dpsi_dtheta, schw, List.length_cons, List.length_nil,
    Finset.sum_range_one, hdist, mass_i, zrel]
  have hdist2 : distance_i ⟨[0], [1], true⟩ 0 (π / 2) (-1) 0 = 1 := hdist
  norm_num [Real.cos_pi_div_two, Real.sqrt_one, hdist2]

/-- C6 (amended): evaluating the expansion at any radius h ≤ 0 does not
fail; the source raises no `DomainError` and the wrapped evaluation returns
`ok` with the same formula value as everywhere else. -/
theorem expansion_no_error_on_nonpositive_radius (st : spacetime) (zc θ h h' : ℝ)
    (hlen : st.z_positions.length = st.masses.length)
    (hh : h ≤ 0)
    (hdist : ∀ i < st.masses.length, 0 < distance_i st zc θ h i) :
    expansionE st zc θ (h, h') = Except.ok (h', specSecondDerivative st zc θ h h') := by
  show Except.ok (expansion st zc θ (h, h')) = _
  rw [expansion_eq_spec st zc θ h h' hlen]

/-- Witness for the amended C6 at h = −1. -/
theorem expansion_no_error_on_nonpositive_radius_witness :
    expansionE schw 0 (π / 2) (-1, 0) =
      Except.ok ((0 : ℝ), specSecondDerivative schw 0 (π / 2) (-1) 0) :=
  expansion_no_error_on_nonpositive_radius schw 0 (π / 2) (-1) 0 rfl (by norm_num)
    (by
      intro i hi
      have hi0 : i = 0 := by
        simpa [schw] using hi
      subst hi0
      have harg : ((-1 : ℝ) * Real.sin (π / 2)) ^ 2 +
          ((-1 : ℝ) * Real.cos (π / 2) - zrel schw 0 0) ^ 2 = 1 := by
        simp [zrel, schw]
      rw [distance_i, harg, Real.sqrt_one]
      norm_num)

/-- C7: in symmetric mode, when the objective has the same sign at both
bracket endpoints (`f(a)·f(b) > 0`, no sign change), `find_r0` raises the
no-sign-change `ValueError` (the spec's `NoSignChangeInBracket`) and the
stored r0 stays empty — no resolved radius. -/
theorem find_r0_no_sign_change_raises (I : Integrator) (B : BracketSolver)
    (R : VectorRootSolver) (st : spacetime) (zc a b : ℝ)
    (hsym : st.reflection_symmetric = true)
    (hns : 0 < shooting_function I st zc a * shooting_function I st zc b) :
    find_r0 I B R st zc (a, b) false = (some PyError.valueError, []) := by
  simp [find_r0, hsym, brentq, hns]

/-- Witness for C7: the Schwarzschild case with the misleading bracket
`[0.01, 0.02]` and an integrator whose objective is the constant 1. -/
theorem find_r0_no_sign_change_raises_witness :
    find_r0 intOne brk0 vroot0 schw 0 (0.01, 0.02) false =
      (some PyError.valueError, []) :=
  find_r0_no_sign_change_raises intOne brk0 vroot0 schw 0 0.01 0.02 rfl
    (by norm_num [shooting_function, intOne])

/-- C8 counterexample: with a vector root solver that exhausts its budget
(`success = false`, final iterate (42, 7)), `find_r0` in general mode
raises nothing and silently stores the unconverged iterate as r0. -/
theorem find_r0_stores_unconverged :
    (vrootFail.solve (shooting_function_full intId binaryAsym 0) (1, 1) 1e-12).success =
      false ∧
    find_r0 intId brk0 vrootFail binaryAsym 0 (1, 1) false = (none, [42, 7]) := by
  exact ⟨rfl, by simp [find_r0, binaryAsym, vrootFail]⟩

/-- C8 (amended): in general mode `find_r0` stores the solver's final
iterate `sol.x` as r0 unconditionally — the convergence flag is never
consulted and no `ShootingDidNotConverge` error exists in the source. -/
theorem find_r0_general_unconditional_store (I : Integrator) (B : BracketSolver)
    (R : VectorRootSolver) (st : spacetime) (zc : ℝ) (g : ℝ × ℝ) (fh : Bool)
    (hgen : fh = true ∨ st.reflection_symmetric = false) :
    find_r0 I B R st zc g fh =
      (none, [(R.solve (shooting_function_full I st zc) g 1e-12).x.1,
              (R.solve (shooting_function_full I st zc) g 1e-12).x.2]) := by
  rcases hgen with h | h <;> simp [find_r0, h]

/-- Witness for the amended C8 on the non-symmetric binary spacetime. -/
theorem find_r0_general_unconditional_store_witness :
    find_r0 intId brk0 vrootFail binaryAsym 0 (2, 3) false =
      (none, [(vrootFail.solve (shooting_function_full intId binaryAsym 0) (2, 3) 1e-12).x.1,
              (vrootFail.solve (shooting_function_full intId binaryAsym 0) (2, 3) 1e-12).x.2]) :=
  find_r0_general_unconditional_store intId brk0 vrootFail binaryAsym 0 (2, 3) false
    (Or.inr rfl)

/-- Helper: for positive x the natural ceiling splits off one unit step. -/
theorem ceil_split_step {x : ℝ} (hx : 0 < x) :
    Nat.ceil x = Nat.ceil (x - 1) + 1 := by
  apply le_antisymm
  · apply Nat.ceil_le.mpr
    have h1 : x - 1 ≤ (Nat.ceil (x - 1) : ℝ) := Nat.le_ceil _
    push_cast
    linarith
  · have hlt : (Nat.ceil (x - 1) : ℝ) < x := by
      by_cases h1 : x ≤ 1
      · have h0 : Nat.ceil (x - 1) = 0 := Nat.ceil_eq_zero.mpr (by linarith)
        rw [h0]
        exact_mod_cast hx
      · have h2 : (0 : ℝ) ≤ x - 1 := by linarith
        have h3 := Nat.ceil_lt_add_one h2
        linarith
    have h4 := Nat.lt_ceil.mpr hlt
    omega

/-- Characterization of the forward loop's θ samples: starting at time t it
appends exactly `⌈(π/2 − t)/(π/100)⌉` samples, at times `t + (k+1)·π/100`. -/
theorem fwdLoop_map_fst (I : Integrator) (rhs : ℝ → ℝ × ℝ → ℝ × ℝ) :
    ∀ (n : ℕ) (t : ℝ) (y : ℝ × ℝ), Nat.ceil ((π / 2 - t) / (π / 100)) = n →
      (fwdLoop I rhs t y).map Prod.fst =
        (List.range n).map (fun k : ℕ => t + ((k : ℝ) + 1) * (π / 100)) := by
  intro n
  induction n with
  | zero =>
    intro t y hn
    have hd : (0 : ℝ) < π / 100 := by have := Real.pi_pos; linarith
    have hx : (π / 2 - t) / (π / 100) ≤ 0 := Nat.ceil_eq_zero.mp hn
    have ht : ¬ t < π / 2 := by
      intro hlt
      have hp : 0 < (π / 2 - t) / (π / 100) := div_pos (by linarith) hd
      linarith
    rw [fwdLoop, dif_neg ht]
    simp
  | succ n ih =>
    intro t y hn
    have hd : (0 : ℝ) < π / 100 := by have := Real.pi_pos; linarith
    have hx : 0 < (π / 2 - t) / (π / 100) := by
      have hc : 0 < Nat.ceil ((π / 2 - t) / (π / 100)) := by omega
      exact Nat.ceil_pos.mp hc
    have ht : t < π / 2 := by
      rcases div_pos_iff.mp hx with ⟨ha, _⟩ | ⟨_, hb⟩
      · linarith
      · linarith
    rw [fwdLoop, dif_pos ht]
    have harg : (π / 2 - (t + π / 100)) / (π / 100) = (π / 2 - t) / (π / 100) - 1 := by
      field_simp
      ring
    have hnext : Nat.ceil ((π / 2 - (t + π / 100)) / (π / 100)) = n := by
      rw [harg]
      have hs := ceil_split_step hx
      omega
    simp only [List.map_cons]
    rw [ih (t + π / 100) _ hnext, List.range_succ_eq_map, List.map_cons, List.map_map]
    congr 1
    · norm_num
    · apply List.map_congr_left
      intro k _
      simp only [Function.comp_apply]
      push_cast
      ring

/-- Characterization of the backward loop's θ samples: starting at time t it
appends exactly `bwdSteps t` samples, at times `t − (k+1)·π/100`. -/
theorem bwdLoop_map_fst (I : Integrator) (rhs : ℝ → ℝ × ℝ → ℝ × ℝ) :
    ∀ (n : ℕ) (t : ℝ) (y : ℝ × ℝ), bwdSteps t = n →
      (bwdLoop I rhs t y).map Prod.fst =
        (List.range n).map (fun k : ℕ => t - ((k : ℝ) + 1) * (π / 100)) := by
  intro n
  induction n with
  | zero =>
    intro t y hn
    have hg : ¬ (π / 2 + 1e-12 ≤ t) := by
      intro hge
      rw [bwdSteps, if_pos hge] at hn
      omega
    rw [bwdLoop, dif_neg hg]
    simp
  | succ n ih =>
    intro t y hn
    have hd : (0 : ℝ) < π / 100 := by have := Real.pi_pos; linarith
    have hg : π / 2 + 1e-12 ≤ t := by
      by_contra hng
      rw [bwdSteps, if_neg hng] at hn
      omega
    rw [bwdSteps, if_pos hg] at hn
    have hfl : Nat.floor ((t - (π / 2 + 1e-12)) / (π / 100)) = n := by omega
    rw [bwdLoop, dif_pos hg]
    have hnext : bwdSteps (t - π / 100) = n := by
      have harg : (t - π / 100 - (π / 2 + 1e-12)) / (π / 100) =
          (t - (π / 2 + 1e-12)) / (π / 100) - 1 := by
        field_simp
        ring
      by_cases hg2 : π / 2 + 1e-12 ≤ t - π / 100
      · rw [bwdSteps, if_pos hg2, harg, Nat.floor_sub_one]
        have hx1 : 1 ≤ (t - (π / 2 + 1e-12)) / (π / 100) := by
          rw [le_div_iff hd]
          linarith
        have h1 : 1 ≤ Nat.floor ((t - (π / 2 + 1e-12)) / (π / 100)) :=
          Nat.le_floor (by exact_mod_cast hx1)
        omega
      · rw [bwdSteps, if_neg hg2]
        have hx1 : (t - (π / 2 + 1e-12)) / (π / 100) < 1 := by
          rw [div_lt_one hd]
          linarith
        have h1 : Nat.floor ((t - (π / 2 + 1e-12)) / (π / 100)) = 0 := by
          apply Nat.floor_eq_zero.mpr
          exact hx1
        omega
    simp only [List.map_cons]
    rw [ih (t - π / 100) _ hnext, List.range_succ_eq_map, List.map_cons, List.map_map]
    congr 1
    · norm_num
    · apply List.map_congr_left
      intro k _
      simp only [Function.comp_apply]
      push_cast
      ring

/-- Helper: the forward loop from θ = 0 performs exactly 50 steps. -/
theorem ceil_fwd_fifty : Nat.ceil ((π / 2 - 0) / (π / 100)) = 50 := by
  have hne : (π / 100 : ℝ) ≠ 0 := by
    have := Real.pi_pos
    positivity
  have h1 : (π / 2 - 0 : ℝ) = 50 * (π / 100) := by ring
  rw [h1, mul_div_assoc, div_self hne, mul_one]
  norm_num

/-- Helper: the backward loop from θ = π performs exactly 50 steps (the
loop guard `π/2 + 1e-12` stops it one step short of crossing π/2). -/
theorem bwdSteps_pi : bwdSteps π = 50 := by
  have h3 : (3 : ℝ) < π := Real.pi_gt_three
  have hc : (1e-12 : ℝ) < 3 / 2 := by norm_num
  have hg : π / 2 + 1e-12 ≤ π := by linarith
  rw [bwdSteps, if_pos hg]
  have hpi : (π : ℝ) ≠ 0 := Real.pi_ne_zero
  have hx : (π - (π / 2 + 1e-12)) / (π / 100) = 50 - 1e-10 / π := by
    field_simp
    ring
  rw [hx]
  have hb1 : (0 : ℝ) < 1e-10 / π := by positivity
  have hb2 : 1e-10 / π ≤ 1 := by
    rw [div_le_one (by linarith)]
    norm_num
    linarith
  have hfl : Nat.floor ((50 : ℝ) - 1e-10 / π) = 49 := by
    rw [Nat.floor_eq_iff (by linarith)]
    constructor
    · norm_num
      linarith
    · norm_num
      linarith
  omega

/-- Helper: the quarter grid written with its first sample split off. -/
theorem thetaQuarter_cons :
    thetaQuarter = 0 :: (List.range 50).map (fun k : ℕ => 0 + ((k : ℝ) + 1) * (π / 100)) := by
  rw [thetaQuarter, show (51 : ℕ) = 50 + 1 from rfl, List.range_succ_eq_map,
    List.map_cons, List.map_map]
  congr 1
  · norm_num
  · apply List.map_congr_left
    intro k _
    simp only [Function.comp_apply]
    push_cast
    ring

/-- Helper: the forward trajectory's θ samples are the closed-form quarter
grid `0, dθ, …, 50·dθ`. -/
theorem fwdPairs_map_fst (I : Integrator) (st : spacetime) (zc r0a : ℝ) :
    (fwdPairs I st zc r0a).map Prod.fst = thetaQuarter := by
  rw [fwdPairs, List.map_cons,
    fwdLoop_map_fst I (expansion st zc) 50 0 (r0a, 0) ceil_fwd_fifty, thetaQuarter_cons]

/-- Helper: the backward trajectory's θ samples are the closed-form grid
`π, π − dθ, …, π − 50·dθ`. -/
theorem bwdPairs_map_fst (I : Integrator) (st : spacetime) (zc r0b : ℝ) :
    (bwdPairs I st zc r0b).map Prod.fst = thetaBack := by
  rw [bwdPairs, List.map_cons,
    bwdLoop_map_fst I (expansion st zc) 50 π (r0b, 0) bwdSteps_pi, thetaBack]

/-- Helper: the symmetric-branch half θ list equals its closed form. -/
theorem symHalfTheta_eq (I : Integrator) (st : spacetime) (zc r0a : ℝ) :
    symHalfTheta I st zc r0a = thetaHalfSym := by
  rw [symHalfTheta, fwdPairs_map_fst, thetaHalfSym]

/-- Helper: the general-branch half θ list equals its closed form. -/
theorem genHalfTheta_eq (I : Integrator) (st : spacetime) (zc r0a r0b : ℝ) :
    genHalfTheta I st zc r0a r0b = thetaHalfGen := by
  rw [genHalfTheta, fwdPairs_map_fst, bwdPairs_map_fst, thetaHalfGen]

/-- Helper: θ output of a symmetric-branch run. -/
theorem solve_theta_sym (I : Integrator) (st : spacetime) (zc : ℝ) (r0 : List ℝ)
    (hsym : st.reflection_symmetric = true) :
    (solve_given_r0 I st zc r0 false).1 = thetaFullSym := by
  rw [solve_given_r0, hsym]
  simp only [Bool.not_true, Bool.or_false, Bool.false_eq_true, if_false]
  rw [thetaFullSym, symHalfTheta_eq]

/-- Helper: θ output of a general-branch (`full_horizon = true`) run. -/
theorem solve_theta_gen (I : Integrator) (st : spacetime) (zc : ℝ) (r0 : List ℝ) :
    (solve_given_r0 I st zc r0 true).1 = thetaFullGen := by
  rw [solve_given_r0]
  simp only [Bool.true_or, eq_self_iff_true, if_true]
  rw [thetaFullGen, genHalfTheta_eq]

/-- Helper: length of the quarter grid. -/
theorem thetaQuarter_length : thetaQuarter.length = 51 := by
  simp [thetaQuarter]

/-- Helper: length of the symmetric half θ list. -/
theorem thetaHalfSym_length : thetaHalfSym.length = 102 := by
  simp [thetaHalfSym, thetaQuarter]

/-- Helper: length of the symmetric full θ list. -/
theorem thetaFullSym_length : thetaFullSym.length = 204 := by
  simp [thetaFullSym, thetaHalfSym, thetaQuarter]

/-- Helper: length of the backward grid. -/
theorem thetaBack_length : thetaBack.length = 51 := by
  simp [thetaBack]

/-- Helper: length of the general half θ list. -/
theorem thetaHalfGen_length : thetaHalfGen.length = 102 := by
  simp [thetaHalfGen, thetaQuarter, thetaBack]

/-- Helper: length of the general full θ list. -/
theorem thetaFullGen_length : thetaFullGen.length = 204 := by
  simp [thetaFullGen, thetaHalfGen, thetaQuarter, thetaBack]

/-- Helper: the symmetric half θ list reversed is its reflection through
π/2: `reverse = map (π − ·)`. -/
theorem thetaHalfSym_reverse : thetaHalfSym.reverse = thetaHalfSym.map (fun t => π - t) := by
  rw [thetaHalfSym, List.reverse_append, List.reverse_reverse, List.map_append,
    ← List.map_reverse, List.map_map]
  congr 1
  rw [List.map_congr_left (fun a _ => by simp :
    ∀ a ∈ thetaQuarter.reverse, ((fun t => π - t) ∘ fun t => π - t) a = a)]
  simp

/-- Helper: entries of the quarter grid. -/
theorem thetaQuarter_getD (k : ℕ) (hk : k < 51) :
    thetaQuarter.getD k 0 = (k : ℝ) * (π / 100) := by
  have hlen : k < thetaQuarter.length := by rw [thetaQuarter_length]; exact hk
  rw [List.getD_eq_getElem _ _ hlen]
  simp [thetaQuarter]

/-- Helper: the first sample of the symmetric half list is θ = 0. -/
theorem thetaHalfSym_getD_zero : thetaHalfSym.getD 0 0 = 0 := by
  rw [thetaHalfSym, List.getD_append _ _ _ _ (by rw [thetaQuarter_length]; omega),
    thetaQuarter_getD 0 (by omega)]
  norm_num

/-- Helper: index mirror of the symmetric half list through π/2. -/
theorem thetaHalfSym_getD_mirror (k : ℕ) (hk : k < 102) :
    thetaHalfSym.getD (101 - k) 0 = π - thetaHalfSym.getD k 0 := by
  have hlen : thetaHalfSym.length = 102 := thetaHalfSym_length
  have hb1 : 101 - k < thetaHalfSym.length := by rw [hlen]; omega
  have hb2 : k < thetaHalfSym.length := by rw [hlen]; omega
  have hb3 : k < thetaHalfSym.reverse.length := by simpa using hb2
  rw [List.getD_eq_getElem _ _ hb1, List.getD_eq_getElem _ _ hb2]
  have e1 : thetaHalfSym.reverse[k] = thetaHalfSym[101 - k] := by
    rw [List.getElem_reverse]
    have hidx : thetaHalfSym.length - 1 - k = 101 - k := by omega
    simp only [hidx]
  have e2 : thetaHalfSym.reverse[k] = π - thetaHalfSym[k] := by
    simp only [thetaHalfSym_reverse, List.getElem_map]
  rw [← e1, e2]

/-- Helper: left half of the symmetric full θ list. -/
theorem thetaFullSym_getD_left (k : ℕ) (hk : k < 102) :
    thetaFullSym.getD k 0 = thetaHalfSym.getD k 0 := by
  rw [thetaFullSym, List.getD_append _ _ _ _ (by rw [thetaHalfSym_length]; omega)]

/-- Helper: right half of the symmetric full θ list is the left half
shifted by π. -/
theorem thetaFullSym_getD_right (j : ℕ) (hj : j < 102) :
    thetaFullSym.getD (102 + j) 0 = thetaHalfSym.getD j 0 + π := by
  rw [thetaFullSym,
    List.getD_append_right _ _ _ _ (by rw [thetaHalfSym_length]; omega),
    thetaHalfSym_length]
  have hb : 102 + j - 102 < (thetaHalfSym.map (fun t => t + π)).length := by
    simp [thetaHalfSym_length]
    omega
  rw [List.getD_eq_getElem _ _ hb]
  simp only [List.getElem_map]
  have hj2 : 102 + j - 102 = j := by omega
  simp only [hj2]
  rw [List.getD_eq_getElem _ _ (show j < thetaHalfSym.length by rw [thetaHalfSym_length]; omega)]

/-- Helper: the quarter grid is non-decreasing. -/
theorem thetaQuarter_pairwise : thetaQuarter.Pairwise (· ≤ ·) := by
  rw [thetaQuarter]
  refine (List.pairwise_lt_range 51).map _ ?_
  intro a b hab
  have hd : (0 : ℝ) ≤ π / 100 := by have := Real.pi_pos; linarith
  have hc : (a : ℝ) ≤ (b : ℝ) := by exact_mod_cast le_of_lt hab
  exact mul_le_mul_of_nonneg_right hc hd

/-- Helper: bounds on the quarter grid entries. -/
theorem thetaQuarter_bounds : ∀ x ∈ thetaQuarter, 0 ≤ x ∧ x ≤ π / 2 := by
  intro x hx
  rw [thetaQuarter] at hx
  obtain ⟨k, hk, rfl⟩ := List.mem_map.mp hx
  rw [List.mem_range] at hk
  have hpi : (0 : ℝ) < π := Real.pi_pos
  have hd : (0 : ℝ) ≤ π / 100 := by linarith
  constructor
  · positivity
  · have hc : (k : ℝ) ≤ 50 := by exact_mod_cast Nat.lt_succ_iff.mp hk
    have h1 : (k : ℝ) * (π / 100) ≤ 50 * (π / 100) := mul_le_mul_of_nonneg_right hc hd
    linarith

/-- Helper: the symmetric half list is non-decreasing. -/
theorem thetaHalfSym_pairwise : thetaHalfSym.Pairwise (· ≤ ·) := by
  rw [thetaHalfSym, List.pairwise_append]
  refine ⟨thetaQuarter_pairwise, ?_, ?_⟩
  · rw [List.pairwise_reverse]
    refine thetaQuarter_pairwise.map _ ?_
    intro a b hab
    linarith
  · intro x hx y hy
    rw [List.mem_reverse] at hy
    obtain ⟨b, hb, rfl⟩ := List.mem_map.mp hy
    have h1 := (thetaQuarter_bounds x hx).2
    have h2 := (thetaQuarter_bounds b hb).2
    linarith

/-- Helper: bounds on the symmetric half list entries. -/
theorem thetaHalfSym_bounds : ∀ x ∈ thetaHalfSym, 0 ≤ x ∧ x ≤ π := by
  intro x hx
  have hpi : (0 : ℝ) < π := Real.pi_pos
  rw [thetaHalfSym] at hx
  rcases List.mem_append.mp hx with h | h
  · have := thetaQuarter_bounds x h
    constructor <;> linarith [this.1, this.2]
  · rw [List.mem_reverse] at h
    obtain ⟨b, hb, rfl⟩ := List.mem_map.mp h
    have := thetaQuarter_bounds b hb
    constructor <;> linarith [this.1, this.2]

/-- Helper: the symmetric full θ list is non-decreasing. -/
theorem thetaFullSym_pairwise : thetaFullSym.Pairwise (· ≤ ·) := by
  rw [thetaFullSym, List.pairwise_append]
  refine ⟨thetaHalfSym_pairwise, ?_, ?_⟩
  · refine thetaHalfSym_pairwise.map _ ?_
    intro a b hab
    linarith
  · intro x hx y hy
    obtain ⟨b, hb, rfl⟩ := List.mem_map.mp hy
    have h1 := (thetaHalfSym_bounds x hx).2
    have h2 := (thetaHalfSym_bounds b hb).1
    linarith

/-- Helper: bounds on the symmetric full list entries. -/
theorem thetaFullSym_bounds : ∀ x ∈ thetaFullSym, 0 ≤ x ∧ x ≤ 2 * π := by
  intro x hx
  have hpi : (0 : ℝ) < π := Real.pi_pos
  rw [thetaFullSym] at hx
  rcases List.mem_append.mp hx with h | h
  · have := thetaHalfSym_bounds x h
    constructor <;> linarith [this.1, this.2]
  · obtain ⟨b, hb, rfl⟩ := List.mem_map.mp h
    have := thetaHalfSym_bounds b hb
    constructor <;> linarith [this.1, this.2]

/-- Helper: the backward grid is non-increasing. -/
theorem thetaBack_pairwise : thetaBack.Pairwise (fun a b => b ≤ a) := by
  rw [thetaBack, List.pairwise_cons]
  have hpi : (0 : ℝ) < π := Real.pi_pos
  have hd : (0 : ℝ) ≤ π / 100 := by linarith
  constructor
  · intro x hx
    obtain ⟨k, hk, rfl⟩ := List.mem_map.mp hx
    have hc : (0 : ℝ) ≤ ((k : ℝ) + 1) * (π / 100) := by positivity
    linarith
  · refine (List.pairwise_lt_range 50).map _ ?_
    intro a b hab
    have hc : (a : ℝ) + 1 ≤ (b : ℝ) + 1 := by
      have : (a : ℝ) ≤ (b : ℝ) := by exact_mod_cast le_of_lt hab
      linarith
    have h1 : ((a : ℝ) + 1) * (π / 100) ≤ ((b : ℝ) + 1) * (π / 100) :=
      mul_le_mul_of_nonneg_right hc hd
    linarith

/-- Helper: bounds on the backward grid entries. -/
theorem thetaBack_bounds : ∀ x ∈ thetaBack, π / 2 ≤ x ∧ x ≤ π := by
  intro x hx
  have hpi : (0 : ℝ) < π := Real.pi_pos
  have hd : (0 : ℝ) ≤ π / 100 := by linarith
  rw [thetaBack] at hx
  rcases List.mem_cons.mp hx with h | h
  · subst h
    constructor <;> linarith
  · obtain ⟨k, hk, rfl⟩ := List.mem_map.mp h
    rw [List.mem_range] at hk
    have hc : (k : ℝ) + 1 ≤ 50 := by
      have : (k : ℝ) ≤ 49 := by exact_mod_cast Nat.lt_succ_iff.mp hk
      linarith
    have h0 : (0 : ℝ) ≤ ((k : ℝ) + 1) * (π / 100) := by positivity
    have h1 : ((k : ℝ) + 1) * (π / 100) ≤ 50 * (π / 100) :=
      mul_le_mul_of_nonneg_right hc hd
    constructor <;> linarith

/-- Helper: the general half list is non-decreasing. -/
theorem thetaHalfGen_pairwise : thetaHalfGen.Pairwise (· ≤ ·) := by
  rw [thetaHalfGen, List.pairwise_append]
  refine ⟨thetaQuarter_pairwise, ?_, ?_⟩
  · rw [List.pairwise_reverse]
    exact thetaBack_pairwise
  · intro x hx y hy
    rw [List.mem_reverse] at hy
    have h1 := (thetaQuarter_bounds x hx).2
    have h2 := (thetaBack_bounds y hy).1
    linarith

/-- Helper: bounds on the general half list entries. -/
theorem thetaHalfGen_bounds : ∀ x ∈ thetaHalfGen, 0 ≤ x ∧ x ≤ π := by
  intro x hx
  have hpi : (0 : ℝ) < π := Real.pi_pos
  rw [thetaHalfGen] at hx
  rcases List.mem_append.mp hx with h | h
  · have := thetaQuarter_bounds x h
    constructor <;> linarith [this.1, this.2]
  · rw [List.mem_reverse] at h
    have := thetaBack_bounds x h
    constructor <;> linarith [this.1, this.2]

/-- Helper: the general full θ list is non-decreasing. -/
theorem thetaFullGen_pairwise : thetaFullGen.Pairwise (· ≤ ·) := by
  rw [thetaFullGen, List.pairwise_append]
  refine ⟨thetaHalfGen_pairwise, ?_, ?_⟩
  · refine thetaHalfGen_pairwise.map _ ?_
    intro a b hab
    linarith
  · intro x hx y hy
    obtain ⟨b, hb, rfl⟩ := List.mem_map.mp hy
    have h1 := (thetaHalfGen_bounds x hx).2
    have h2 := (thetaHalfGen_bounds b hb).1
    linarith

/-- Helper: the quarter grid hits π/2 exactly once (at its last entry). -/
theorem thetaQuarter_count : thetaQuarter.count (π / 2) = 1 := by
  have hd : (π / 100 : ℝ) ≠ 0 := by
    have := Real.pi_pos
    positivity
  have hinj : Function.Injective (fun k : ℕ => (k : ℝ) * (π / 100)) := by
    intro a b hab
    simp only at hab
    have hc : (a : ℝ) = b := mul_right_cancel₀ hd hab
    exact_mod_cast hc
  have h50 : (π / 2 : ℝ) = ((50 : ℕ) : ℝ) * (π / 100) := by push_cast; ring
  rw [thetaQuarter, h50, List.count_map_of_injective _ _ hinj 50]
  have h1 : (50 : ℕ) ∈ List.range 51 := by rw [List.mem_range]; omega
  exact List.count_eq_one_of_mem (List.nodup_range 51) h1

/-- Helper: the backward grid hits π/2 exactly once (at its last entry). -/
theorem thetaBack_count : thetaBack.count (π / 2) = 1 := by
  have hpi : (0 : ℝ) < π := Real.pi_pos
  have hd : (π / 100 : ℝ) ≠ 0 := by positivity
  have hinj : Function.Injective (fun k : ℕ => π - ((k : ℝ) + 1) * (π / 100)) := by
    intro a b hab
    simp only at hab
    have hc : ((a : ℝ) + 1) * (π / 100) = ((b : ℝ) + 1) * (π / 100) := by linarith
    have hc2 : (a : ℝ) + 1 = (b : ℝ) + 1 := mul_right_cancel₀ hd hc
    have hc3 : (a : ℝ) = b := by linarith
    exact_mod_cast hc3
  have h49 : (π / 2 : ℝ) = π - (((49 : ℕ) : ℝ) + 1) * (π / 100) := by push_cast; ring
  rw [thetaBack, List.count_cons, h49, List.count_map_of_injective _ _ hinj 49]
  have hne2 : ¬ (π = π - (((49 : ℕ) : ℝ) + 1) * (π / 100)) := by
    intro h
    have h0 : (((49 : ℕ) : ℝ) + 1) * (π / 100) = 0 := by linarith
    have h1 : (((49 : ℕ) : ℝ) + 1) * (π / 100) = π / 2 := by push_cast; ring
    linarith
  simp only [beq_iff_eq, if_neg hne2, Nat.add_zero]
  have h1 : (49 : ℕ) ∈ List.range 50 := by rw [List.mem_range]; omega
  exact List.count_eq_one_of_mem (List.nodup_range 50) h1

/-- Helper: the general half-domain concatenation samples θ = π/2 twice
(once as the last forward sample, once as the last backward sample). -/
theorem thetaHalfGen_count : thetaHalfGen.count (π / 2) = 2 := by
  rw [thetaHalfGen, List.count_append, List.count_reverse, thetaQuarter_count,
    thetaBack_count]

/-- Helper: θ = π is a sample of the symmetric half list. -/
theorem pi_mem_thetaHalfSym : (π : ℝ) ∈ thetaHalfSym := by
  rw [thetaHalfSym]
  refine List.mem_append.mpr (Or.inr ?_)
  rw [List.mem_reverse]
  refine List.mem_map.mpr ⟨0, ?_, by norm_num⟩
  rw [thetaQuarter]
  exact List.mem_map.mpr ⟨0, by simp, by norm_num⟩

/-- Helper: θ = π is a sample of the general half list. -/
theorem pi_mem_thetaHalfGen : (π : ℝ) ∈ thetaHalfGen := by
  rw [thetaHalfGen]
  refine List.mem_append.mpr (Or.inr ?_)
  rw [List.mem_reverse, thetaBack]
  exact List.mem_cons_self _ _

/-- Helper: θ = 2π is a sample of the symmetric full output. -/
theorem two_pi_mem_thetaFullSym : (2 * π : ℝ) ∈ thetaFullSym := by
  rw [thetaFullSym]
  refine List.mem_append.mpr (Or.inr ?_)
  exact List.mem_map.mpr ⟨π, pi_mem_thetaHalfSym, by ring⟩

/-- Helper: θ = 2π is a sample of the general full output. -/
theorem two_pi_mem_thetaFullGen : (2 * π : ℝ) ∈ thetaFullGen := by
  rw [thetaFullGen]
  refine List.mem_append.mpr (Or.inr ?_)
  exact List.mem_map.mpr ⟨π, pi_mem_thetaHalfGen, by ring⟩

/-- Helper: the final sample of the symmetric full output sits at θ = 2π. -/
theorem thetaFullSym_last : thetaFullSym.getD 203 0 = 2 * π := by
  have h2 : thetaHalfSym.getD 101 0 = π := by
    have h := thetaHalfSym_getD_mirror 0 (by omega)
    rw [thetaHalfSym_getD_zero] at h
    simpa using h
  have h1 := thetaFullSym_getD_right 101 (by omega)
  rw [show (203 : ℕ) = 102 + 101 from rfl, h1, h2]
  ring

/-- Helper: the 102nd sample of the general half list sits at θ = π. -/
theorem thetaHalfGen_getD_101 : thetaHalfGen.getD 101 0 = π := by
  rw [thetaHalfGen,
    List.getD_append_right _ _ _ _ (by rw [thetaQuarter_length]; omega),
    thetaQuarter_length]
  have hl := thetaBack_length
  have hb : 101 - 51 < thetaBack.reverse.length := by
    rw [List.length_reverse, hl]
    omega
  rw [List.getD_eq_getElem _ _ hb, List.getElem_reverse]
  have hidx : thetaBack.length - 1 - (101 - 51) = 0 := by omega
  simp only [hidx]
  simp [thetaBack]

/-- Helper: right half of the general full θ list is the left half shifted
by π. -/
theorem thetaFullGen_getD_right (j : ℕ) (hj : j < 102) :
    thetaFullGen.getD (102 + j) 0 = thetaHalfGen.getD j 0 + π := by
  rw [thetaFullGen,
    List.getD_append_right _ _ _ _ (by rw [thetaHalfGen_length]; omega),
    thetaHalfGen_length]
  have hb : 102 + j - 102 < (thetaHalfGen.map (fun t => t + π)).length := by
    simp [thetaHalfGen_length]
    omega
  rw [List.getD_eq_getElem _ _ hb]
  simp only [List.getElem_map]
  have hj2 : 102 + j - 102 = j := by omega
  simp only [hj2]
  rw [List.getD_eq_getElem _ _ (show j < thetaHalfGen.length by rw [thetaHalfGen_length]; omega)]

/-- Helper: the final sample of the general full output sits at θ = 2π. -/
theorem thetaFullGen_last : thetaFullGen.getD 203 0 = 2 * π := by
  have h1 := thetaFullGen_getD_right 101 (by omega)
  rw [show (203 : ℕ) = 102 + 101 from rfl, h1, thetaHalfGen_getD_101]
  ring

/-- C5 counterexample: at the Schwarzschild data the domain-coverage claim
fails: the symmetric θ output has 204 samples (so not within ±1 of 200),
it contains the sample 2π itself (so it does not stop short of 2π), and
the general half-domain concatenation carries a duplicated π/2 sample. -/
theorem solve_theta_claim_false :
    ¬ claimC5 (solve_given_r0 intId schw 0 [0.5] false).1
        (solve_given_r0 intId schw 0 [0.5, 0.5] true).1
        (genHalfTheta intId schw 0 0.5 0.5) ∧
    (2 * π) ∈ (solve_given_r0 intId schw 0 [0.5] false).1 ∧
    (genHalfTheta intId schw 0 0.5 0.5).count (π / 2) = 2 := by
  refine ⟨?_, ?_, ?_⟩
  · intro h
    obtain ⟨h1, h2, h3, h4, h5⟩ := h
    have hlen : (solve_given_r0 intId schw 0 [0.5] false).1.length = 204 := by
      rw [solve_theta_sym intId schw 0 [0.5] rfl, thetaFullSym_length]
    rw [hlen] at h3
    omega
  · rw [solve_theta_sym intId schw 0 [0.5] rfl]
    exact two_pi_mem_thetaFullSym
  · rw [genHalfTheta_eq]
    exact thetaHalfGen_count

/-- C5 (amended): for every integrator and resolved radii, the θ output of
`solve_given_r0` is the fixed grid `thetaFullSym` (symmetric branch) or
`thetaFullGen` (general branch); both have exactly 204 samples (not
200 ± 1), are non-decreasing with duplicated samples at the gluing points,
cover `[0, 2π]` with the final sample at exactly 2π, and the general
half-domain concatenation samples θ = π/2 twice. -/
theorem solve_given_r0_domain_coverage (I : Integrator) (st : spacetime) (zc : ℝ)
    (r0s r0g : List ℝ) (hsym : st.reflection_symmetric = true) :
    (solve_given_r0 I st zc r0s false).1 = thetaFullSym ∧
    (solve_given_r0 I st zc r0g true).1 = thetaFullGen ∧
    thetaFullSym.length = 204 ∧ thetaFullGen.length = 204 ∧
    thetaFullSym.Pairwise (· ≤ ·) ∧ thetaFullGen.Pairwise (· ≤ ·) ∧
    (∀ x ∈ thetaFullSym, 0 ≤ x ∧ x ≤ 2 * π) ∧
    thetaFullSym.getD 203 0 = 2 * π ∧ thetaFullGen.getD 203 0 = 2 * π ∧
    thetaHalfGen.count (π / 2) = 2 :=
  ⟨solve_theta_sym I st zc r0s hsym, solve_theta_gen I st zc r0g,
    thetaFullSym_length, thetaFullGen_length, thetaFullSym_pairwise,
    thetaFullGen_pairwise, thetaFullSym_bounds, thetaFullSym_last,
    thetaFullGen_last, thetaHalfGen_count⟩

/-- Witness for the amended C5 at the Schwarzschild data. -/
theorem solve_given_r0_domain_coverage_witness :
    (solve_given_r0 intId schw 0 [0.5] false).1 = thetaFullSym ∧
    (solve_given_r0 intId schw 0 [0.5, 0.5] true).1 = thetaFullGen ∧
    thetaFullSym.length = 204 ∧ thetaFullGen.length = 204 :=
  have h := solve_given_r0_domain_coverage intId schw 0 [0.5] [0.5, 0.5] rfl
  ⟨h.1, h.2.1, h.2.2.1, h.2.2.2.1⟩

/-- Helper: the forward trajectory has 51 samples. -/
theorem fwdPairs_length (I : Integrator) (st : spacetime) (zc a : ℝ) :
    (fwdPairs I st zc a).length = 51 := by
  have h := congrArg List.length (fwdPairs_map_fst I st zc a)
  simpa [thetaQuarter_length] using h

/-- Helper: the symmetric half state block is a palindrome. -/
theorem symHalfH_reverse (I : Integrator) (st : spacetime) (zc a : ℝ) :
    (symHalfH I st zc a).reverse = symHalfH I st zc a := by
  rw [symHalfH, List.reverse_append, List.reverse_reverse]

/-- Helper: the symmetric half state block has 102 entries. -/
theorem symHalfH_length (I : Integrator) (st : spacetime) (zc a : ℝ) :
    (symHalfH I st zc a).length = 102 := by
  rw [symHalfH, List.length_append, List.length_reverse, List.length_map,
    fwdPairs_length]

/-- Helper: state output of a symmetric-branch run. -/
theorem solve_H_sym (I : Integrator) (st : spacetime) (zc : ℝ) (r0 : List ℝ)
    (hsym : st.reflection_symmetric = true) :
    (solve_given_r0 I st zc r0 false).2 =
      symHalfH I st zc (r0.getD 0 0) ++ (symHalfH I st zc (r0.getD 0 0)).reverse := by
  rw [solve_given_r0, hsym]
  simp only [Bool.not_true, Bool.or_false, Bool.false_eq_true, if_false]

/-- C10: in a symmetric-branch run the two mirror stages copy states
verbatim: the sample at the mirrored angle π − θ_k (index 101 − k) carries
the same (h, h') pair as the sample at θ_k, and every index 102 + j of the
[π, 2π] half carries θ_j + π with exactly the (h, h') pair of index j — in
particular the derivative h' is never sign-negated. -/
theorem solve_sym_mirror_verbatim (I : Integrator) (st : spacetime) (zc : ℝ)
    (r0 : List ℝ) (hsym : st.reflection_symmetric = true) :
    (∀ k, k < 102 →
      (solve_given_r0 I st zc r0 false).1.getD (101 - k) 0 =
        π - (solve_given_r0 I st zc r0 false).1.getD k 0 ∧
      (solve_given_r0 I st zc r0 false).2.getD (101 - k) (0, 0) =
        (solve_given_r0 I st zc r0 false).2.getD k (0, 0)) ∧
    (∀ j, j < 102 →
      (solve_given_r0 I st zc r0 false).1.getD (102 + j) 0 =
        (solve_given_r0 I st zc r0 false).1.getD j 0 + π ∧
      (solve_given_r0 I st zc r0 false).2.getD (102 + j) (0, 0) =
        (solve_given_r0 I st zc r0 false).2.getD j (0, 0)) := by
  have hθ := solve_theta_sym I st zc r0 hsym
  have hH := solve_H_sym I st zc r0 hsym
  have hBrev : (symHalfH I st zc (r0.getD 0 0)).reverse = symHalfH I st zc (r0.getD 0 0) :=
    symHalfH_reverse I st zc (r0.getD 0 0)
  have hBlen : (symHalfH I st zc (r0.getD 0 0)).length = 102 :=
    symHalfH_length I st zc (r0.getD 0 0)
  constructor
  · intro k hk
    constructor
    · rw [hθ, thetaFullSym_getD_left _ (by omega), thetaFullSym_getD_left _ hk,
        thetaHalfSym_getD_mirror k hk]
    · rw [hH,
        List.getD_append _ _ _ _ (show 101 - k < _ by rw [hBlen]; omega),
        List.getD_append _ _ _ _ (show k < _ by rw [hBlen]; omega)]
      have hkr : k < (symHalfH I st zc (r0.getD 0 0)).reverse.length := by
        rw [List.length_reverse, hBlen]
        omega
      have h2 : (symHalfH I st zc (r0.getD 0 0)).reverse.getD k (0, 0) =
          (symHalfH I st zc (r0.getD 0 0)).getD
            ((symHalfH I st zc (r0.getD 0 0)).length - 1 - k) (0, 0) := by
        rw [List.getD_eq_getElem _ _ hkr, List.getElem_reverse,
          List.getD_eq_getElem _ _ (show _ - 1 - k < _ by rw [hBlen]; omega)]
      have h1 : (symHalfH I st zc (r0.getD 0 0)).reverse.getD k (0, 0) =
          (symHalfH I st zc (r0.getD 0 0)).getD k (0, 0) := by rw [hBrev]
      have hidx : (symHalfH I st zc (r0.getD 0 0)).length - 1 - k = 101 - k := by
        rw [hBlen]
      rw [hidx] at h2
      rw [← h2, h1]
  · intro j hj
    constructor
    · rw [hθ, thetaFullSym_getD_right j hj, thetaFullSym_getD_left j hj]
    · rw [hH,
        List.getD_append_right _ _ _ _ (show _ ≤ 102 + j by rw [hBlen]; omega),
        List.getD_append _ _ _ _ (show j < _ by rw [hBlen]; omega)]
      have hidx : 102 + j - (symHalfH I st zc (r0.getD 0 0)).length = j := by
        rw [hBlen]
        omega
      rw [hidx, hBrev]

/-- Witness for C10 at the Schwarzschild data, indices k = 0 and j = 0. -/
theorem solve_sym_mirror_verbatim_witness :
    (solve_given_r0 intId schw 0 [0.5] false).1.getD 101 0 =
      π - (solve_given_r0 intId schw 0 [0.5] false).1.getD 0 0 ∧
    (solve_given_r0 intId schw 0 [0.5] false).2.getD 101 (0, 0) =
      (solve_given_r0 intId schw 0 [0.5] false).2.getD 0 (0, 0) ∧
    (solve_given_r0 intId schw 0 [0.5] false).1.getD 102 0 =
      (solve_given_r0 intId schw 0 [0.5] false).1.getD 0 0 + π ∧
    (solve_given_r0 intId schw 0 [0.5] false).2.getD 102 (0, 0) =
      (solve_given_r0 intId schw 0 [0.5] false).2.getD 0 (0, 0) := by
  have h := solve_sym_mirror_verbatim intId schw 0 [0.5] rfl
  have h1 := h.1 0 (by omega)
  have h2 := h.2 0 (by omega)
  exact ⟨by simpa using h1.1, by simpa using h1.2, by simpa using h2.1,
    by simpa using h2.2⟩

/-- Helper: the argmin scan never moves off `best` when no later entry goes
below the current best value. -/
theorem argminAux_of_le (xs : List ℝ) :
    ∀ (i best : ℕ) (bv : ℝ), (∀ x ∈ xs, bv ≤ x) → argminAux xs i best bv = best := by
  induction xs with
  | nil =>
    intro i best bv _
    simp [argminAux]
  | cons x xs ih =>
    intro i best bv h
    simp only [argminAux]
    rw [if_neg (not_lt.mpr (h x (List.mem_cons_self _ _)))]
    exact ih _ _ _ (fun y hy => h y (List.mem_cons_of_mem _ hy))

/-- Helper: on a strictly descending tail the argmin scan walks to the very
last index. -/
theorem argminAux_of_desc (xs : List ℝ) :
    ∀ (i best : ℕ) (bv : ℝ), (bv :: xs).Pairwise (fun a b => b < a) → xs ≠ [] →
      argminAux xs i best bv = i + (xs.length - 1) := by
  induction xs with
  | nil =>
    intro i best bv _ hne
    exact absurd rfl hne
  | cons x xs ih =>
    intro i best bv hp hne
    simp only [argminAux]
    have hx : x < bv := (List.pairwise_cons.mp hp).1 x (List.mem_cons_self _ _)
    rw [if_pos hx]
    cases xs with
    | nil =>
      simp [argminAux]
    | cons y ys =>
      rw [ih (i + 1) i x (List.pairwise_cons.mp hp).2 (by simp)]
      simp only [List.length_cons]
      omega

/-- Helper: `np.argmin` of a non-decreasing array is index 0. -/
theorem argmin_of_asc (l : List ℝ) (hp : l.Pairwise (· ≤ ·)) : argmin l = 0 := by
  cases l with
  | nil => rfl
  | cons x xs =>
    simp only [argmin]
    exact argminAux_of_le xs 1 0 x (fun y hy => (List.pairwise_cons.mp hp).1 y hy)

/-- Helper: `np.argmin` of a strictly decreasing array is the last index. -/
theorem argmin_of_desc (l : List ℝ) (hp : l.Pairwise (fun a b => b < a))
    (h2 : 2 ≤ l.length) : argmin l = l.length - 1 := by
  cases l with
  | nil => simp at h2
  | cons x xs =>
    simp only [argmin]
    have hne : xs ≠ [] := by
      intro h
      rw [h] at h2
      simp at h2
    rw [argminAux_of_desc xs 1 0 x hp hne]
    have h3 : 0 < xs.length := List.length_pos.mpr hne
    simp only [List.length_cons]
    omega

/-- Helper: entries of the linspace grid. -/
theorem linspace_getD (a b : ℝ) (n k : ℕ) (hk : k < n) :
    (linspace a b n).getD k 0 = a + (b - a) * (k : ℝ) / ((n : ℝ) - 1) := by
  have hlen : k < (linspace a b n).length := by
    simp [linspace]
    omega
  rw [List.getD_eq_getElem _ _ hlen]
  simp [linspace]

/-- Helper: the last entry of the 50-point linspace grid. -/
theorem linspace_getLastD_fifty (a b : ℝ) :
    (linspace a b 50).getLastD 0 = a + (b - a) * 49 / 49 := by
  rw [linspace, show (50 : ℕ) = 49 + 1 from rfl, List.range_succ, List.map_append,
    List.map_cons, List.map_nil, List.getLastD_concat]
  norm_num

/-- Helper: the empirical guess for two unit masses at z = 0. -/
theorem r0Empirical_zero_one : r0Empirical 0 1 = 1 := by
  norm_num [r0Empirical]

/-- Helper: with the sign-flipping integrator the symmetric objective is
the negated radius. -/
theorem shooting_intNeg (st : spacetime) (zc r : ℝ) :
    shooting_function intNeg st zc r = -r := rfl

/-- Helper: the scan values under the sign-flipping integrator are the
negated candidates. -/
theorem scanValues_intNeg (z mass : ℝ) :
    scanValues intNeg z mass = (scanCandidates z mass).map (fun r => -r) := rfl

/-- Helper: a 50-point linspace over a nontrivial window is strictly
increasing. -/
theorem linspace_pairwise_lt (a b : ℝ) (h : a < b) :
    (linspace a b 50).Pairwise (· < ·) := by
  rw [linspace]
  refine (List.pairwise_lt_range 50).map _ ?_
  intro u v huv
  have hc : (u : ℝ) < v := by exact_mod_cast huv
  have hba : (0 : ℝ) < b - a := by linarith
  have hden : (0 : ℝ) < (50 : ℝ) - 1 := by norm_num
  have h2 : (b - a) * (u : ℝ) / ((50 : ℝ) - 1) < (b - a) * (v : ℝ) / ((50 : ℝ) - 1) := by
    apply div_lt_div_of_pos_right ?_ hden
    exact mul_lt_mul_of_pos_left hc hba
  push_cast
  push_cast at h2
  linarith

/-- Helper: the scan grid for z = 0, mass = 1 is strictly increasing. -/
theorem scanCandidates_pairwise : (scanCandidates 0 1).Pairwise (· < ·) := by
  rw [scanCandidates, r0Empirical_zero_one]
  exact linspace_pairwise_lt _ _ (by norm_num)

/-- Helper: the scan grid for z = 0, mass = 1 is nonnegative. -/
theorem scanCandidates_nonneg : ∀ x ∈ scanCandidates 0 1, 0 ≤ x := by
  intro x hx
  rw [scanCandidates, r0Empirical_zero_one, linspace] at hx
  obtain ⟨k, _, rfl⟩ := List.mem_map.mp hx
  have hk : (0 : ℝ) ≤ (k : ℝ) := Nat.cast_nonneg k
  have hden : (0 : ℝ) < (50 : ℝ) - 1 := by norm_num
  positivity

/-- Helper: the scan grid has 50 candidates. -/
theorem scanCandidates_length (z mass : ℝ) : (scanCandidates z mass).length = 50 := by
  simp [scanCandidates, linspace]

/-- Helper: the source's argmin over the scan values at z = 0, mass = 1
with the sign-flipping integrator is the last index. -/
theorem scan_argmin_intNeg : argmin (scanValues intNeg 0 1) = 49 := by
  rw [scanValues_intNeg]
  have hp : ((scanCandidates 0 1).map (fun r => -r)).Pairwise (fun a b => b < a) := by
    rw [List.pairwise_map]
    exact scanCandidates_pairwise.imp (fun hab => by simpa using hab)
  have hlen : ((scanCandidates 0 1).map (fun r => -r)).length = 50 := by
    rw [List.length_map, scanCandidates_length]
  rw [argmin_of_desc _ hp (by rw [hlen]; omega), hlen]

/-- Helper: the magnitude argmin over the same scan values is index 0. -/
theorem scan_argmin_abs_intNeg : argmin ((scanValues intNeg 0 1).map (fun v => |v|)) = 0 := by
  apply argmin_of_asc
  rw [scanValues_intNeg, List.map_map, List.pairwise_map]
  have hp := scanCandidates_pairwise
  refine hp.imp_of_mem ?_
  intro a b ha hb hab
  have h0a := scanCandidates_nonneg a ha
  have h0b := scanCandidates_nonneg b hb
  simp only [Function.comp_apply, abs_neg]
  rw [abs_of_nonneg h0a, abs_of_nonneg h0b]
  exact le_of_lt hab

/-- Helper: the candidate actually selected by the source at z = 0,
mass = 1 under the sign-flipping integrator is the top of the window. -/
theorem scanSelected_intNeg : scanSelected intNeg 0 1 = 1.05 := by
  rw [scanSelected, scan_argmin_intNeg, scanCandidates, r0Empirical_zero_one,
    linspace_getD _ _ 50 49 (by omega)]
  norm_num

/-- Helper: the spec's magnitude-minimizing candidate at the same data is
the bottom of the window. -/
theorem specScanSelected_intNeg : specScanSelected intNeg 0 1 = 0.95 := by
  rw [specScanSelected, scan_argmin_abs_intNeg, scanCandidates, r0Empirical_zero_one,
    linspace_getD _ _ 50 0 (by omega)]
  norm_num

/-- Helper: symmetric-path `find_r0` raises the `ValueError` on a
same-sign bracket (shared with the fallback analysis). -/
theorem find_r0_sym_error (I : Integrator) (B : BracketSolver) (R : VectorRootSolver)
    (st : spacetime) (zc a b : ℝ) (hsym : st.reflection_symmetric = true)
    (hns : 0 < shooting_function I st zc a * shooting_function I st zc b) :
    find_r0 I B R st zc (a, b) false = (some PyError.valueError, []) := by
  simp [find_r0, hsym, brentq, hns]

/-- Helper: when the first bracketed solve raises, the two-body helper
equals the retried `find_r0` on the scan-derived bracket. -/
theorem findHorizonBinary_fallback_eq (I : Integrator) (B : BracketSolver)
    (R : VectorRootSolver) (z mass : ℝ)
    (hfail : 0 < shooting_function I (binarySpacetime z mass) 0 (0.99 * r0Empirical z mass) *
        shooting_function I (binarySpacetime z mass) 0 (1.01 * r0Empirical z mass)) :
    findHorizonBinarySymmetric_r0 I B R z mass =
      find_r0 I B R (binarySpacetime z mass) 0
        (scanSelected I z mass, (scanCandidates z mass).getLastD 0) false := by
  unfold findHorizonBinarySymmetric_r0
  dsimp only
  rw [find_r0_sym_error I B R (binarySpacetime z mass) 0 _ _ rfl hfail]

/-- Helper: the last scan candidate at z = 0, mass = 1. -/
theorem scanCandidates_last_zero_one : (scanCandidates 0 1).getLastD 0 = 1.05 := by
  rw [scanCandidates, r0Empirical_zero_one, linspace_getLastD_fifty]
  norm_num

/-- C9 counterexample: at z = 0, mass = 1 with a sign-flipping integrator,
the first solve fails and the helper retries — but the retry candidate is
`r0[argmin(phi)] = 1.05` (the signed minimum, at the top of the window),
not the magnitude-minimizing candidate `0.95` the claim describes. -/
theorem scan_selection_not_magnitude :
    scanSelected intNeg 0 1 = 1.05 ∧ specScanSelected intNeg 0 1 = 0.95 ∧
    scanSelected intNeg 0 1 ≠ specScanSelected intNeg 0 1 ∧
    findHorizonBinarySymmetric_r0 intNeg brk0 vroot0 0 1 =
      find_r0 intNeg brk0 vroot0 (binarySpacetime 0 1) 0 (1.05, 1.05) false := by
  have hfail : 0 < shooting_function intNeg (binarySpacetime 0 1) 0 (0.99 * r0Empirical 0 1) *
      shooting_function intNeg (binarySpacetime 0 1) 0 (1.01 * r0Empirical 0 1) := by
    simp only [shooting_intNeg, r0Empirical_zero_one]
    norm_num
  refine ⟨scanSelected_intNeg, specScanSelected_intNeg, ?_, ?_⟩
  · rw [scanSelected_intNeg, specScanSelected_intNeg]
    norm_num
  · rw [findHorizonBinary_fallback_eq intNeg brk0 vroot0 0 1 hfail, scanSelected_intNeg,
      scanCandidates_last_zero_one]

/-- C9 (amended): whenever the first bracketed solve fails, the helper
evaluates the symmetric objective at 50 candidates spanning
[0.95, 1.05]·guess, selects the candidate at `np.argmin(phi)` — the
minimizer of the signed objective value, not of its magnitude — and
retries `find_r0` with that candidate and the window's far edge; a failure
of the retry propagates (there is no further recovery). -/
theorem binary_fallback_scan_retry (I : Integrator) (B : BracketSolver)
    (R : VectorRootSolver) (z mass : ℝ)
    (hfail : 0 < shooting_function I (binarySpacetime z mass) 0 (0.99 * r0Empirical z mass) *
        shooting_function I (binarySpacetime z mass) 0 (1.01 * r0Empirical z mass)) :
    findHorizonBinarySymmetric_r0 I B R z mass =
      find_r0 I B R (binarySpacetime z mass) 0
        (scanSelected I z mass, (scanCandidates z mass).getLastD 0) false ∧
    (scanCandidates z mass).length = 50 ∧
    (scanCandidates z mass).getD 0 0 = 0.95 * r0Empirical z mass ∧
    (scanCandidates z mass).getLastD 0 = 1.05 * r0Empirical z mass ∧
    scanSelected I z mass = (scanCandidates z mass).getD (argmin (scanValues I z mass)) 0 := by
  refine ⟨findHorizonBinary_fallback_eq I B R z mass hfail, scanCandidates_length z mass,
    ?_, ?_, rfl⟩
  · rw [scanCandidates, linspace_getD _ _ 50 0 (by omega)]
    norm_num
  · rw [scanCandidates, linspace_getLastD_fifty]
    ring

/-- Witness for the amended C9 at z = 0, mass = 1 with the sign-flipping
integrator. -/
theorem binary_fallback_scan_retry_witness :
    findHorizonBinarySymmetric_r0 intNeg brk0 vroot0 0 1 =
      find_r0 intNeg brk0 vroot0 (binarySpacetime 0 1) 0
        (scanSelected intNeg 0 1, (scanCandidates 0 1).getLastD 0) false ∧
    (scanCandidates 0 1).length = 50 :=
  have h := binary_fallback_scan_retry intNeg brk0 vroot0 0 1 (by
    simp only [shooting_intNeg, r0Empirical_zero_one]
    norm_num)
  ⟨h.1, h.2.1⟩
